import Mathlib

/-!
Verification of the rennet MPEG7 annotation core.

Shallow embedding of `rennet/utils/mpeg7_utils.py` and
`rennet/datasets/ka3.py` (timestamp parsing, interval sanitization,
active-speaker timeline construction and lookup), with theorems checking
the natural-language specification against the code.

Strings are modelled as `List Char`; Python `str.split(sep)` is modelled
by `splitOnChar`; a Python exception is modelled by `Option`/`Except`
returning no value.
-/

namespace Rennet

/-- Python `s.split(sep)` for a single-character separator:
`"".split(c) = [""]`, and each occurrence of `c` starts a new chunk. -/
def splitOnChar (c : Char) : List Char → List (List Char)
  | [] => [[]]
  | x :: xs =>
    let r := splitOnChar c xs
    if x = c then [] :: r
    else
      match r with
      | [] => [[x]]
      | h :: t => (x :: h) :: t

/-- Decimal value of a list of digit characters (the value Python `int`
returns on an all-digit string). -/
def digitsToNat (l : List Char) : Nat :=
  l.foldl (fun a ch => a * 10 + (ch.toNat - 48)) 0

/-- Python `int(s)` restricted to the strings the annotation format uses:
succeeds exactly on a non-empty all-digit string, otherwise raises
(`none`). -/
def pyInt (l : List Char) : Option Nat :=
  if l ≠ [] ∧ l.all Char.isDigit then some (digitsToNat l) else none

/-- Embeds `_parse_timepoint` of `mpeg7_utils.py` (lines 151-164): split
on `'T'` into exactly two parts, the time part on `':'` into exactly four
fields, the last field on `'F'` into numerator and per-second resolution;
any other shape raises ValueError (`none`).
Returns `((h*3600 + m*60 + s) * persec + val, persec)`. -/
def parse_timepoint (tp : List Char) : Option (Nat × Nat) :=
  match splitOnChar 'T' tp with
  | [_, rest] =>
    match splitOnChar ':' rest with
    | [hh, mm, ss, fr] =>
      match splitOnChar 'F' fr with
      | [vs, pss] =>
        match pyInt hh, pyInt mm, pyInt ss, pyInt vs, pyInt pss with
        | some h, some m, some s, some v, some p =>
            some ((h * 3600 + m * 60 + s) * p + v, p)
        | _, _, _, _, _ => none
      | _ => none
    | _ => none
  | _ => none

/-- One step of the duration-component loop of `_parse_duration`
(`mpeg7_utils.py` lines 170-176): if the marker occurs in the remaining
string, split on it into exactly two parts and convert the first to an
integer (any other shape raises, `none`); otherwise the component is 0
and the string is unchanged. -/
def extractComponent (marker : Char) (d : List Char) : Option (Nat × List Char) :=
  if marker ∈ d then
    match splitOnChar marker d with
    | [v, rest] =>
      match pyInt v with
      | some n => some (n, rest)
      | none => none
    | _ => none
  else some (0, d)

/-- Embeds `_parse_duration` of `mpeg7_utils.py` (lines 167-185): split on
`'T'`, then extract the `'H'`, `'M'`, `'S'`, `'N'`, `'F'` components in
order, missing components defaulting to 0.
Returns `((h*3600 + m*60 + s) * persec + val, persec)`. -/
def parse_duration (du : List Char) : Option (Nat × Nat) :=
  match splitOnChar 'T' du with
  | [_, rest] => do
    let (h, r1) ← extractComponent 'H' rest
    let (m, r2) ← extractComponent 'M' r1
    let (s, r3) ← extractComponent 'S' r2
    let (v, r4) ← extractComponent 'N' r3
    let (p, _) ← extractComponent 'F' r4
    some ((h * 3600 + m * 60 + s) * p + v, p)
  | _ => none

/-- Modelled from the spec: `lowest_common_multiple` from
`rennet.utils.py_utils` is not in the sources; per the spec (§4.2) it is
the pairwise least common multiple with a zero argument treated as 1
("no observed fractional resolution" is compatible with any
resolution). -/
def lowest_common_multiple (a b : Nat) : Nat :=
  Nat.lcm (if a = 0 then 1 else a) (if b = 0 then 1 else b)

/-- Embeds `_parse_timestring` of `mpeg7_utils.py` (lines 141-148): parse
the time point and the duration, bring both to the LCM resolution, and
return `(start, start + duration, persec)`.  A zero resolution on either
side makes `persec // tps` or `persec // dps` raise ZeroDivisionError in
Python (`none` here). -/
def parse_timestring (tp du : List Char) : Option (Nat × Nat × Nat) :=
  match parse_timepoint tp, parse_duration du with
  | some (tpt, tps), some (dur, dps) =>
    if tps = 0 ∨ dps = 0 then none
    else
      let persec := lowest_common_multiple tps dps
      some (tpt * (persec / tps), tpt * (persec / tps) + dur * (persec / dps), persec)
  | _, _ => none

/-- Embeds `_sanitize_starts_ends` of `mpeg7_utils.py` (lines 203-208):
`persec = reduce(lowest_common_multiple, set(persecs))` — the reduce over
the distinct resolutions, first element as accumulator (`ps.dedup` keeps
first occurrences; LCM is associative and commutative, so the set's
iteration order is immaterial) — then every interval is rescaled by
`s * persec // p`.  An empty resolution list makes Python's `reduce`
raise (`none`); a zero resolution among the zipped pairs makes
`s * persec // p` raise ZeroDivisionError (`none`). -/
def sanitize_starts_ends (se : List (Nat × Nat)) (ps : List Nat) :
    Option (List (Nat × Nat) × Nat) :=
  match ps.dedup with
  | [] => none
  | h :: t =>
    let persec := t.foldl lowest_common_multiple h
    if (se.zip ps).all (fun x => x.2 != 0) then
      some ((se.zip ps).map (fun x => (x.1.1 * persec / x.2, x.1.2 * persec / x.2)),
        persec)
    else none

/-- A well-formed time-point string built from its component fields: an
arbitrary date prefix (no `'T'`), then `T H:M:S:nFN` with each field a
non-empty digit string. -/
def mkTimepointChars (pre hs ms ss vs pss : List Char) : List Char :=
  pre ++ 'T' :: (hs ++ ':' :: (ms ++ ':' :: (ss ++ ':' :: (vs ++ 'F' :: pss))))

/-- A well-formed duration string with all five components present:
an arbitrary prefix (no `'T'`), then `T hH mM sS n'N N'F` with each value
a non-empty digit string. -/
def mkDurationChars (pre hs ms ss vs pss : List Char) : List Char :=
  pre ++ 'T' :: (hs ++ 'H' :: (ms ++ 'M' :: (ss ++ 'S' :: (vs ++ 'N' :: (pss ++ ['F'])))))

theorem splitOnChar_of_not_mem (c : Char) (l : List Char) (h : c ∉ l) :
    splitOnChar c l = [l] := by
  induction l with
  | nil => rfl
  | cons x xs ih =>
    have hx : ¬ x = c := fun he => h (he ▸ List.mem_cons_self x xs)
    have hxs : c ∉ xs := fun hm => h (List.mem_cons_of_mem x hm)
    simp only [splitOnChar, if_neg hx, ih hxs]

theorem splitOnChar_append (c : Char) (xs ys : List Char) (h : c ∉ xs) :
    splitOnChar c (xs ++ c :: ys) = xs :: splitOnChar c ys := by
  induction xs with
  | nil => simp [splitOnChar]
  | cons x xt ih =>
    have hx : ¬ x = c := fun he => h (he ▸ List.mem_cons_self x xt)
    have hxt : c ∉ xt := fun hm => h (List.mem_cons_of_mem x hm)
    simp only [List.cons_append, splitOnChar, if_neg hx, List.append_eq, ih hxt]

theorem not_mem_of_all_digits {l : List Char} {c : Char}
    (hl : l.all Char.isDigit) (hc : c.isDigit = false) : c ∉ l := by
  intro hm
  have := List.all_eq_true.mp hl c hm
  rw [hc] at this
  exact Bool.false_ne_true this

theorem not_mem_append_cons {c m : Char} {xs ys : List Char}
    (h1 : c ∉ xs) (h2 : c ≠ m) (h3 : c ∉ ys) : c ∉ xs ++ m :: ys := by
  intro h
  rcases List.mem_append.mp h with h | h
  · exact h1 h
  · rcases List.mem_cons.mp h with h | h
    · exact h2 h
    · exact h3 h

theorem pyInt_digits {l : List Char} (h1 : l ≠ []) (h2 : l.all Char.isDigit) :
    pyInt l = some (digitsToNat l) := by
  unfold pyInt
  rw [if_pos ⟨h1, h2⟩]

/-- Parsing a well-formed time-point string yields the integer tick
`(h*3600 + m*60 + s) * N + n` at resolution `N`. -/
theorem parse_timepoint_mk (pre hs ms ss vs pss : List Char)
    (hpre : 'T' ∉ pre)
    (hhs : hs ≠ []) (hhsd : hs.all Char.isDigit)
    (hms : ms ≠ []) (hmsd : ms.all Char.isDigit)
    (hss : ss ≠ []) (hssd : ss.all Char.isDigit)
    (hvs : vs ≠ []) (hvsd : vs.all Char.isDigit)
    (hpss : pss ≠ []) (hpssd : pss.all Char.isDigit) :
    parse_timepoint (mkTimepointChars pre hs ms ss vs pss) =
      some ((digitsToNat hs * 3600 + digitsToNat ms * 60 + digitsToNat ss)
              * digitsToNat pss + digitsToNat vs, digitsToNat pss) := by
  have hThs : 'T' ∉ hs := not_mem_of_all_digits hhsd (by decide)
  have hTms : 'T' ∉ ms := not_mem_of_all_digits hmsd (by decide)
  have hTss : 'T' ∉ ss := not_mem_of_all_digits hssd (by decide)
  have hTvs : 'T' ∉ vs := not_mem_of_all_digits hvsd (by decide)
  have hTpss : 'T' ∉ pss := not_mem_of_all_digits hpssd (by decide)
  have hChs : ':' ∉ hs := not_mem_of_all_digits hhsd (by decide)
  have hCms : ':' ∉ ms := not_mem_of_all_digits hmsd (by decide)
  have hCss : ':' ∉ ss := not_mem_of_all_digits hssd (by decide)
  have hCvs : ':' ∉ vs := not_mem_of_all_digits hvsd (by decide)
  have hCpss : ':' ∉ pss := not_mem_of_all_digits hpssd (by decide)
  have hFvs : 'F' ∉ vs := not_mem_of_all_digits hvsd (by decide)
  have hFpss : 'F' ∉ pss := not_mem_of_all_digits hpssd (by decide)
  have hTrest : 'T' ∉ hs ++ ':' :: (ms ++ ':' :: (ss ++ ':' :: (vs ++ 'F' :: pss))) :=
    not_mem_append_cons hThs (by decide) (not_mem_append_cons hTms (by decide)
      (not_mem_append_cons hTss (by decide)
        (not_mem_append_cons hTvs (by decide) hTpss)))
  have step1 : splitOnChar 'T' (mkTimepointChars pre hs ms ss vs pss) =
      [pre, hs ++ ':' :: (ms ++ ':' :: (ss ++ ':' :: (vs ++ 'F' :: pss)))] := by
    rw [mkTimepointChars, splitOnChar_append _ _ _ hpre,
      splitOnChar_of_not_mem _ _ hTrest]
  have step2 : splitOnChar ':' (hs ++ ':' :: (ms ++ ':' :: (ss ++ ':' :: (vs ++ 'F' :: pss)))) =
      [hs, ms, ss, vs ++ 'F' :: pss] := by
    rw [splitOnChar_append _ _ _ hChs, splitOnChar_append _ _ _ hCms,
      splitOnChar_append _ _ _ hCss,
      splitOnChar_of_not_mem _ _ (not_mem_append_cons hCvs (by decide) hCpss)]
  have step3 : splitOnChar 'F' (vs ++ 'F' :: pss) = [vs, pss] := by
    rw [splitOnChar_append _ _ _ hFvs, splitOnChar_of_not_mem _ _ hFpss]
  rw [parse_timepoint]
  simp only [step1, step2, step3, pyInt_digits hhs hhsd, pyInt_digits hms hmsd,
    pyInt_digits hss hssd, pyInt_digits hvs hvsd, pyInt_digits hpss hpssd]

/-- Extracting a present component: the value before the first marker
occurrence is converted, the remainder is returned. -/
theorem extractComponent_mk {marker : Char} {v rest : List Char} {n : Nat}
    (h1 : marker ∉ v) (h2 : marker ∉ rest) (h3 : pyInt v = some n) :
    extractComponent marker (v ++ marker :: rest) = some (n, rest) := by
  have hmem : marker ∈ v ++ marker :: rest :=
    List.mem_append.mpr (Or.inr (List.mem_cons_self _ _))
  rw [extractComponent, if_pos hmem]
  simp only [splitOnChar_append _ _ _ h1, splitOnChar_of_not_mem _ _ h2, h3]

/-- Parsing a well-formed duration string with all five components
present yields the integer tick `(h*3600 + m*60 + s) * N + n` at
resolution `N`. -/
theorem parse_duration_mk (pre hs ms ss vs pss : List Char)
    (hpre : 'T' ∉ pre)
    (hhs : hs ≠ []) (hhsd : hs.all Char.isDigit)
    (hms : ms ≠ []) (hmsd : ms.all Char.isDigit)
    (hss : ss ≠ []) (hssd : ss.all Char.isDigit)
    (hvs : vs ≠ []) (hvsd : vs.all Char.isDigit)
    (hpss : pss ≠ []) (hpssd : pss.all Char.isDigit) :
    parse_duration (mkDurationChars pre hs ms ss vs pss) =
      some ((digitsToNat hs * 3600 + digitsToNat ms * 60 + digitsToNat ss)
              * digitsToNat pss + digitsToNat vs, digitsToNat pss) := by
  have hThs : 'T' ∉ hs := not_mem_of_all_digits hhsd (by decide)
  have hTms : 'T' ∉ ms := not_mem_of_all_digits hmsd (by decide)
  have hTss : 'T' ∉ ss := not_mem_of_all_digits hssd (by decide)
  have hTvs : 'T' ∉ vs := not_mem_of_all_digits hvsd (by decide)
  have hTpss : 'T' ∉ pss := not_mem_of_all_digits hpssd (by decide)
  have hTrest : 'T' ∉ hs ++ 'H' :: (ms ++ 'M' :: (ss ++ 'S' :: (vs ++ 'N' :: (pss ++ ['F'])))) :=
    not_mem_append_cons hThs (by decide) (not_mem_append_cons hTms (by decide)
      (not_mem_append_cons hTss (by decide) (not_mem_append_cons hTvs (by decide)
        (not_mem_append_cons hTpss (by decide) (by decide)))))
  have step1 : splitOnChar 'T' (mkDurationChars pre hs ms ss vs pss) =
      [pre, hs ++ 'H' :: (ms ++ 'M' :: (ss ++ 'S' :: (vs ++ 'N' :: (pss ++ ['F']))))] := by
    rw [mkDurationChars, splitOnChar_append _ _ _ hpre,
      splitOnChar_of_not_mem _ _ hTrest]
  have eH : extractComponent 'H' (hs ++ 'H' :: (ms ++ 'M' :: (ss ++ 'S' :: (vs ++ 'N' :: (pss ++ ['F']))))) =
      some (digitsToNat hs, ms ++ 'M' :: (ss ++ 'S' :: (vs ++ 'N' :: (pss ++ ['F'])))) :=
    extractComponent_mk (not_mem_of_all_digits hhsd (by decide))
      (not_mem_append_cons (not_mem_of_all_digits hmsd (by decide)) (by decide)
        (not_mem_append_cons (not_mem_of_all_digits hssd (by decide)) (by decide)
          (not_mem_append_cons (not_mem_of_all_digits hvsd (by decide)) (by decide)
            (not_mem_append_cons (not_mem_of_all_digits hpssd (by decide)) (by decide)
              (by decide)))))
      (pyInt_digits hhs hhsd)
  have eM : extractComponent 'M' (ms ++ 'M' :: (ss ++ 'S' :: (vs ++ 'N' :: (pss ++ ['F'])))) =
      some (digitsToNat ms, ss ++ 'S' :: (vs ++ 'N' :: (pss ++ ['F']))) :=
    extractComponent_mk (not_mem_of_all_digits hmsd (by decide))
      (not_mem_append_cons (not_mem_of_all_digits hssd (by decide)) (by decide)
        (not_mem_append_cons (not_mem_of_all_digits hvsd (by decide)) (by decide)
          (not_mem_append_cons (not_mem_of_all_digits hpssd (by decide)) (by decide)
            (by decide))))
      (pyInt_digits hms hmsd)
  have eS : extractComponent 'S' (ss ++ 'S' :: (vs ++ 'N' :: (pss ++ ['F']))) =
      some (digitsToNat ss, vs ++ 'N' :: (pss ++ ['F'])) :=
    extractComponent_mk (not_mem_of_all_digits hssd (by decide))
      (not_mem_append_cons (not_mem_of_all_digits hvsd (by decide)) (by decide)
        (not_mem_append_cons (not_mem_of_all_digits hpssd (by decide)) (by decide)
          (by decide)))
      (pyInt_digits hss hssd)
  have eN : extractComponent 'N' (vs ++ 'N' :: (pss ++ ['F'])) =
      some (digitsToNat vs, pss ++ ['F']) :=
    extractComponent_mk (not_mem_of_all_digits hvsd (by decide))
      (not_mem_append_cons (not_mem_of_all_digits hpssd (by decide)) (by decide)
        (by decide))
      (pyInt_digits hvs hvsd)
  have eF : extractComponent 'F' (pss ++ ['F']) = some (digitsToNat pss, []) := by
    have : pss ++ ['F'] = pss ++ 'F' :: [] := rfl
    rw [this]
    exact extractComponent_mk (not_mem_of_all_digits hpssd (by decide))
      (by decide) (pyInt_digits hpss hpssd)
  rw [parse_duration]
  simp only [step1, eH, eM, eS, eN, eF, Option.bind_eq_bind, Option.some_bind]

theorem lowest_common_multiple_pos {a b : Nat} (ha : a ≠ 0) (hb : b ≠ 0) :
    lowest_common_multiple a b = Nat.lcm a b := by
  rw [lowest_common_multiple, if_neg ha, if_neg hb]

/-- C1: for every well-formed time-point string with clock fields `H:M:S`
and fractional suffix `nFN`, and every well-formed duration string with
all five components, parsing the time point yields tick
`(3600*H + 60*M + S)*N + n` at resolution `N`, and combining with the
parsed duration yields exactly
`(startTick * factorStart, startTick * factorStart + durTick * factorDur)`
at the common resolution `LCM(N, N')`, with `factorStart = LCM/N` and
`factorDur = LCM/N'` exact integer factors — pure integer arithmetic on
the component tuples. -/
theorem claim_C1_parse_combine_exact
    (preT preD hs ms ss vs pss hs2 ms2 ss2 vs2 pss2 : List Char)
    (N N2 T D L : Nat)
    (hpreT : 'T' ∉ preT) (hpreD : 'T' ∉ preD)
    (hhs : hs ≠ []) (hhsd : hs.all Char.isDigit)
    (hms : ms ≠ []) (hmsd : ms.all Char.isDigit)
    (hss : ss ≠ []) (hssd : ss.all Char.isDigit)
    (hvs : vs ≠ []) (hvsd : vs.all Char.isDigit)
    (hpss : pss ≠ []) (hpssd : pss.all Char.isDigit)
    (hhs2 : hs2 ≠ []) (hhsd2 : hs2.all Char.isDigit)
    (hms2 : ms2 ≠ []) (hmsd2 : ms2.all Char.isDigit)
    (hss2 : ss2 ≠ []) (hssd2 : ss2.all Char.isDigit)
    (hvs2 : vs2 ≠ []) (hvsd2 : vs2.all Char.isDigit)
    (hpss2 : pss2 ≠ []) (hpssd2 : pss2.all Char.isDigit)
    (hN : N = digitsToNat pss) (hN2 : N2 = digitsToNat pss2)
    (hNpos : 0 < N) (hN2pos : 0 < N2)
    (hT : T = (3600 * digitsToNat hs + 60 * digitsToNat ms + digitsToNat ss) * N
            + digitsToNat vs)
    (hD : D = (3600 * digitsToNat hs2 + 60 * digitsToNat ms2 + digitsToNat ss2) * N2
            + digitsToNat vs2)
    (hL : L = Nat.lcm N N2) :
    parse_timestring (mkTimepointChars preT hs ms ss vs pss)
        (mkDurationChars preD hs2 ms2 ss2 vs2 pss2) =
      some (T * (L / N), T * (L / N) + D * (L / N2), L)
    ∧ (L / N) * N = L ∧ (L / N2) * N2 = L := by
  subst hN hN2 hT hD hL
  refine ⟨?_, Nat.div_mul_cancel (Nat.dvd_lcm_left _ _),
    Nat.div_mul_cancel (Nat.dvd_lcm_right _ _)⟩
  have harith : ∀ a b c : Nat, a * 3600 + b * 60 + c = 3600 * a + 60 * b + c := by
    intro a b c; ring
  rw [parse_timestring]
  simp only [parse_timepoint_mk preT hs ms ss vs pss hpreT hhs hhsd hms hmsd
      hss hssd hvs hvsd hpss hpssd,
    parse_duration_mk preD hs2 ms2 ss2 vs2 pss2 hpreD hhs2 hhsd2 hms2 hmsd2
      hss2 hssd2 hvs2 hvsd2 hpss2 hpssd2]
  rw [if_neg (by omega),
    lowest_common_multiple_pos (by omega) (by omega), harith, harith]

/-- Witness for C1 at a concrete input: time point `T00:00:01:1F2`
(tick 3 at resolution 2) and duration `PT0H0M0S1N3F` (tick 1 at
resolution 3); the common resolution is 6 and the result is
`(9, 11, 6)`. -/
theorem claim_C1_parse_combine_exact_witness :
    parse_timestring (mkTimepointChars [] ['0'] ['0'] ['1'] ['1'] ['2'])
        (mkDurationChars ['P'] ['0'] ['0'] ['0'] ['1'] ['3']) =
      some (3 * (6 / 2), 3 * (6 / 2) + 1 * (6 / 3), 6)
    ∧ (6 / 2) * 2 = 6 ∧ (6 / 3) * 3 = 6 :=
  claim_C1_parse_combine_exact [] ['P'] ['0'] ['0'] ['1'] ['1'] ['2']
    ['0'] ['0'] ['0'] ['1'] ['3'] 2 3 3 1 6
    (by decide) (by decide)
    (by decide) (by decide) (by decide) (by decide) (by decide) (by decide)
    (by decide) (by decide) (by decide) (by decide)
    (by decide) (by decide) (by decide) (by decide) (by decide) (by decide)
    (by decide) (by decide) (by decide) (by decide)
    (by decide) (by decide) (by decide) (by decide)
    (by decide) (by decide) (by decide)

/-- C4: the spec requires a zero or absent fraction denominator in a
duration to be treated as "no fractional component" (resolution 1), with
no division by zero and the whole-second count preserved.  The code does
neither: `_parse_duration "PT5S"` returns `(res*persec + val, persec)
= (5*0 + 0, 0) = (0, 0)` — the 5 whole seconds are lost — and
`_parse_timestring` then evaluates `persec // dps` with `dps = 0`,
raising ZeroDivisionError (modelled as `none`) instead of combining; the
same happens when `F` is present with value 0. -/
theorem claim_C4_zero_denominator_not_special_cased :
    parse_duration ['P', 'T', '5', 'S'] = some (0, 0)
    ∧ parse_timestring
        ['T', '0', '0', ':', '0', '0', ':', '0', '0', ':', '0', 'F', '1', '0', '0']
        ['P', 'T', '5', 'S'] = none
    ∧ parse_duration ['P', 'T', '5', 'S', '0', 'F'] = some (0, 0)
    ∧ parse_timestring
        ['T', '0', '0', ':', '0', '0', ':', '0', '0', ':', '0', 'F', '1', '0', '0']
        ['P', 'T', '5', 'S', '0', 'F'] = none := by
  refine ⟨rfl, rfl, rfl, rfl⟩

/-- The left fold of `lowest_common_multiple` over a list of nonzero
resolutions is their least common multiple: nonzero, divisible by the
accumulator and by every element, and dividing every common multiple. -/
theorem foldl_lcm_spec (t : List Nat) :
    ∀ h : Nat, h ≠ 0 → (∀ p ∈ t, p ≠ 0) →
      (t.foldl lowest_common_multiple h ≠ 0
      ∧ h ∣ t.foldl lowest_common_multiple h
      ∧ (∀ p ∈ t, p ∣ t.foldl lowest_common_multiple h)
      ∧ ∀ m, h ∣ m → (∀ p ∈ t, p ∣ m) → t.foldl lowest_common_multiple h ∣ m) := by
  induction t with
  | nil =>
    intro h hh _
    exact ⟨hh, dvd_refl h, fun p hp => absurd hp (List.not_mem_nil p),
      fun m hm _ => hm⟩
  | cons p t ih =>
    intro h hh hall
    have hp : p ≠ 0 := hall p (List.mem_cons_self p t)
    have ht : ∀ q ∈ t, q ≠ 0 := fun q hq => hall q (List.mem_cons_of_mem p hq)
    have hstep : lowest_common_multiple h p = Nat.lcm h p :=
      lowest_common_multiple_pos hh hp
    have hlcm : Nat.lcm h p ≠ 0 := Nat.lcm_ne_zero hh hp
    obtain ⟨hne, hdvd, hmem, hleast⟩ := ih (Nat.lcm h p) hlcm ht
    rw [List.foldl_cons, hstep]
    refine ⟨hne, dvd_trans (Nat.dvd_lcm_left h p) hdvd, ?_, ?_⟩
    · intro q hq
      rcases List.mem_cons.mp hq with hq | hq
      · subst hq
        exact dvd_trans (Nat.dvd_lcm_right h _) hdvd
      · exact hmem q hq
    · intro m hm hallm
      exact hleast m (Nat.lcm_dvd hm (hallm p (List.mem_cons_self p t)))
        (fun q hq => hallm q (List.mem_cons_of_mem p hq))

/-- Successful run of the sanitizer on nonzero resolutions: the common
resolution is the LCM of the resolutions present, and the output is the
pointwise rescaling of the zipped input. -/
theorem sanitize_spec (se : List (Nat × Nat)) (ps : List Nat)
    (hne : ps ≠ []) (hpos : ∀ p ∈ ps, 0 < p) :
    ∃ out P, sanitize_starts_ends se ps = some (out, P) ∧ 0 < P
      ∧ (∀ p ∈ ps, p ∣ P) ∧ (∀ m, (∀ p ∈ ps, p ∣ m) → P ∣ m)
      ∧ out = (se.zip ps).map (fun x => (x.1.1 * P / x.2, x.1.2 * P / x.2)) := by
  have hdne : ps.dedup ≠ [] := fun h => hne ((List.dedup_eq_nil ps).mp h)
  obtain ⟨h, t, hd⟩ : ∃ h t, ps.dedup = h :: t := by
    cases hdd : ps.dedup with
    | nil => exact absurd hdd hdne
    | cons a b => exact ⟨a, b, rfl⟩
  have hmem_dedup : ∀ p, p ∈ ps.dedup → p ∈ ps := fun p hp => List.mem_dedup.mp hp
  have hh : h ≠ 0 :=
    Nat.pos_iff_ne_zero.mp (hpos h (hmem_dedup h (hd ▸ List.mem_cons_self h t)))
  have ht : ∀ p ∈ t, p ≠ 0 := fun p hp =>
    Nat.pos_iff_ne_zero.mp (hpos p (hmem_dedup p (hd ▸ List.mem_cons_of_mem h hp)))
  obtain ⟨hPne, hPh, hPt, hPleast⟩ := foldl_lcm_spec t h hh ht
  refine ⟨_, t.foldl lowest_common_multiple h, ?_, Nat.pos_of_ne_zero hPne, ?_, ?_, rfl⟩
  · have hguard : (se.zip ps).all (fun x => x.2 != 0) = true := by
      rw [List.all_eq_true]
      intro x hx
      have : x.2 ∈ ps := (List.of_mem_zip hx).2
      simpa using Nat.pos_iff_ne_zero.mp (hpos x.2 this)
    simp only [sanitize_starts_ends, hd, if_pos hguard]
  · intro p hp
    have : p ∈ h :: t := hd ▸ List.mem_dedup.mpr hp
    rcases List.mem_cons.mp this with hph | hpt
    · exact hph ▸ hPh
    · exact hPt p hpt
  · intro m hm
    exact hPleast m (hm h (hmem_dedup h (hd ▸ List.mem_cons_self h t)))
      (fun p hp => hm p (hmem_dedup p (hd ▸ List.mem_cons_of_mem h hp)))

/-- Element lookup in a zip, from lookups in both components. -/
theorem zip_get?_eq {α β : Type} {l : List α} {l' : List β} {a : α} {b : β}
    (i : Nat) (h1 : l.get? i = some a) (h2 : l'.get? i = some b) :
    (l.zip l').get? i = some (a, b) := by
  induction l generalizing l' i with
  | nil => simp at h1
  | cons x xs ih =>
    cases l' with
    | nil => simp at h2
    | cons y ys =>
      cases i with
      | zero =>
        simp only [List.get?] at h1 h2
        cases h1
        cases h2
        rfl
      | succ j =>
        simpa [List.zip_cons_cons] using ih j h1 h2

/-- C3: for every non-empty list of intervals with per-interval
(positive) resolutions, the sanitizer returns a common resolution that
is the least common multiple of the distinct resolutions present
(divisible by each, dividing every common multiple; the underlying
pairwise LCM treats a resolution of 0 as 1, compatible with any
resolution), and every returned tick equals
`originalTick * (commonResolution / originalResolution)`, the division
being exact. -/
theorem claim_C3_sanitize_lcm_exact (se : List (Nat × Nat)) (ps : List Nat)
    (hne : ps ≠ []) (hpos : ∀ p ∈ ps, 0 < p) :
    ∃ out P, sanitize_starts_ends se ps = some (out, P)
      ∧ (∀ p ∈ ps, p ∣ P)
      ∧ (∀ m, (∀ p ∈ ps, p ∣ m) → P ∣ m)
      ∧ (∀ a, lowest_common_multiple a 0 = lowest_common_multiple a 1
            ∧ lowest_common_multiple 0 a = lowest_common_multiple 1 a)
      ∧ ∀ i s e p, se.get? i = some (s, e) → ps.get? i = some p →
          out.get? i = some (s * (P / p), e * (P / p)) ∧ (P / p) * p = P := by
  obtain ⟨out, P, hrun, hPpos, hdvd, hleast, hout⟩ := sanitize_spec se ps hne hpos
  refine ⟨out, P, hrun, hdvd, hleast, fun a => ⟨rfl, rfl⟩, ?_⟩
  intro i s e p hse hp
  have hpdvd : p ∣ P := hdvd p (List.get?_mem hp)
  refine ⟨?_, Nat.div_mul_cancel hpdvd⟩
  rw [hout, List.get?_map, zip_get?_eq i hse hp]
  simp only [Option.map_some']
  rw [Nat.mul_div_assoc s hpdvd, Nat.mul_div_assoc e hpdvd]

/-- Witness for C3: intervals `[(1,2),(3,4)]` at resolutions `[2,3]`
rescale at common resolution `LCM(2,3) = 6`. -/
theorem claim_C3_sanitize_lcm_exact_witness :
    ∃ out P, sanitize_starts_ends [(1, 2), (3, 4)] [2, 3] = some (out, P)
      ∧ (∀ p ∈ [2, 3], p ∣ P)
      ∧ (∀ m, (∀ p ∈ [2, 3], p ∣ m) → P ∣ m)
      ∧ (∀ a, lowest_common_multiple a 0 = lowest_common_multiple a 1
            ∧ lowest_common_multiple 0 a = lowest_common_multiple 1 a)
      ∧ ∀ i s e p, List.get? [(1, 2), (3, 4)] i = some (s, e) →
          List.get? [2, 3] i = some p →
          out.get? i = some (s * (P / p), e * (P / p)) ∧ (P / p) * p = P :=
  claim_C3_sanitize_lcm_exact [(1, 2), (3, 4)] [2, 3] (by decide) (by decide)

/-- C10: for every pair of equal-length lists of intervals and positive
per-interval resolutions, the sanitizer returns exactly one rescaled
interval per input interval, in the same order: output length equals
input length and the i-th output is the rescaling of the i-th input.
Sanitization itself never drops, filters, or reorders intervals. -/
theorem claim_C10_sanitize_one_per_interval (se : List (Nat × Nat)) (ps : List Nat)
    (hlen : se.length = ps.length) (hne : ps ≠ []) (hpos : ∀ p ∈ ps, 0 < p) :
    ∃ out P, sanitize_starts_ends se ps = some (out, P)
      ∧ out.length = se.length
      ∧ ∀ i s e p, se.get? i = some (s, e) → ps.get? i = some p →
          out.get? i = some (s * P / p, e * P / p) := by
  obtain ⟨out, P, hrun, _, hdvd, _, hout⟩ := sanitize_spec se ps hne hpos
  refine ⟨out, P, hrun, ?_, ?_⟩
  · rw [hout, List.length_map, List.length_zip, hlen, Nat.min_self]
  · intro i s e p hse hp
    rw [hout, List.get?_map, zip_get?_eq i hse hp]
    rfl

/-- Witness for C10 at the same concrete input as the C3 witness. -/
theorem claim_C10_sanitize_one_per_interval_witness :
    ∃ out P, sanitize_starts_ends [(1, 2), (3, 4)] [2, 3] = some (out, P)
      ∧ out.length = List.length [(1, 2), (3, 4)]
      ∧ ∀ i s e p, List.get? [(1, 2), (3, 4)] i = some (s, e) →
          List.get? [2, 3] i = some p →
          out.get? i = some (s * P / p, e * P / p) :=
  claim_C10_sanitize_one_per_interval [(1, 2), (3, 4)] [2, 3]
    (by decide) (by decide) (by decide)

/-! ## The active-speaker timeline builder (`ka3.py`, `ActiveSpeakers`)

An annotation is modelled as `(start, end, speakerid)`: the interval
`se[i]` paired with `labels[i].speakerid` of the Annotation Set.  The
dense matrix is modelled as a function `tick → column → count`. -/

/-- `active_speakers[start:end, col] += 1` of `ka3.py` line 266: add one
to column `col` on the half-open tick range `[st, en)`. -/
def incrRange (m : Nat → Nat → Nat) (col st en : Nat) : Nat → Nat → Nat :=
  fun t c => if c = col ∧ st ≤ t ∧ t < en then m t c + 1 else m t c

/-- The inner loop of `ActiveSpeakers.from_annotations` (lines 264-266):
for every interval whose label carries this speaker's id
(`idx_for_speaker`), increment the speaker's column on `[start, end)`. -/
def addSpeakerIntervals (ivs : List (Nat × Nat × String)) (col : Nat) (sid : String)
    (m : Nat → Nat → Nat) : Nat → Nat → Nat :=
  ivs.foldl (fun m iv => if iv.2.2 = sid then incrRange m col iv.1 iv.2.1 else m) m

/-- The outer loop of `ActiveSpeakers.from_annotations` (lines 263-266):
`for s, speaker in enumerate(ann.speakers)` over a zero-initialized
matrix. -/
def active_speakers_matrix (speakers : List String) (ivs : List (Nat × Nat × String)) :
    Nat → Nat → Nat :=
  (speakers.enum).foldl (fun m p => addSpeakerIntervals ivs p.1 p.2 m) (fun _ _ => 0)

theorem addSpeakerIntervals_apply (ivs : List (Nat × Nat × String))
    (col : Nat) (sid : String) (t c : Nat) :
    ∀ m : Nat → Nat → Nat, addSpeakerIntervals ivs col sid m t c =
      if c = col then
        m t c + ivs.countP (fun iv => decide (iv.2.2 = sid ∧ iv.1 ≤ t ∧ t < iv.2.1))
      else m t c := by
  induction ivs with
  | nil =>
    intro m
    by_cases hc : c = col <;> simp [addSpeakerIntervals, hc]
  | cons iv ivs ih =>
    intro m
    rw [addSpeakerIntervals, List.foldl_cons]
    rw [show List.foldl (fun m iv => if iv.2.2 = sid then incrRange m col iv.1 iv.2.1 else m)
        (if iv.2.2 = sid then incrRange m col iv.1 iv.2.1 else m) ivs
      = addSpeakerIntervals ivs col sid
          (if iv.2.2 = sid then incrRange m col iv.1 iv.2.1 else m) from rfl]
    rw [ih]
    have h1 : (if true = true then 1 else 0) = 1 := rfl
    have h0 : (if false = true then 1 else 0) = 0 := rfl
    by_cases hc : c = col
    · subst hc
      rw [if_pos rfl, if_pos rfl, List.countP_cons]
      by_cases hsid : iv.2.2 = sid
      · rw [if_pos hsid, incrRange]
        by_cases hin : iv.1 ≤ t ∧ t < iv.2.1
        · have : decide (iv.2.2 = sid ∧ iv.1 ≤ t ∧ t < iv.2.1) = true := by
            simp [hsid, hin.1, hin.2]
          rw [this, h1, if_pos ⟨rfl, hin⟩]
          omega
        · have : decide (iv.2.2 = sid ∧ iv.1 ≤ t ∧ t < iv.2.1) = false := by
            simp only [decide_eq_false_iff_not]
            exact fun hx => hin hx.2
          rw [this, h0, if_neg (fun hx => hin hx.2)]
          omega
      · have : decide (iv.2.2 = sid ∧ iv.1 ≤ t ∧ t < iv.2.1) = false := by
          simp only [decide_eq_false_iff_not]
          exact fun hx => hsid hx.1
        rw [if_neg hsid, this, h0]
        omega
    · rw [if_neg hc, if_neg hc]
      by_cases hsid : iv.2.2 = sid
      · rw [if_pos hsid, incrRange, if_neg (fun hx => hc hx.1)]
      · rw [if_neg hsid]

/-- Folding the per-speaker additions over any list of
(column, speaker-id) pairs adds, at entry `(t, c)`, the occupancy count
of each pair whose column is `c`. -/
theorem foldl_addSpeakerIntervals_apply (ivs : List (Nat × Nat × String)) (t c : Nat) :
    ∀ (pairs : List (Nat × String)) (m : Nat → Nat → Nat),
      pairs.foldl (fun m p => addSpeakerIntervals ivs p.1 p.2 m) m t c =
        m t c + (pairs.map (fun p => if c = p.1 then
          ivs.countP (fun iv => decide (iv.2.2 = p.2 ∧ iv.1 ≤ t ∧ t < iv.2.1))
          else 0)).sum := by
  intro pairs
  induction pairs with
  | nil => intro m; simp
  | cons p pairs ih =>
    intro m
    rw [List.foldl_cons, ih, addSpeakerIntervals_apply]
    by_cases hc : c = p.1
    · rw [if_pos hc]
      simp only [List.map_cons, List.sum_cons, if_pos hc]
      omega
    · rw [if_neg hc]
      simp only [List.map_cons, List.sum_cons, if_neg hc]
      omega

theorem enumFrom_sum_of_lt {X : String → Nat} {c : Nat} :
    ∀ (l : List String) (k : Nat), c < k →
      ((List.enumFrom k l).map (fun p => if c = p.1 then X p.2 else 0)).sum = 0 := by
  intro l
  induction l with
  | nil => intro k _; rfl
  | cons x l ih =>
    intro k hk
    simp only [List.enumFrom, List.map_cons, List.sum_cons,
      if_neg (by omega : ¬ c = k), ih (k + 1) (by omega)]

theorem enumFrom_sum_get {X : String → Nat} :
    ∀ (l : List String) (j k : Nat) (x : String), l.get? j = some x →
      ((List.enumFrom k l).map (fun p => if k + j = p.1 then X p.2 else 0)).sum = X x := by
  intro l
  induction l with
  | nil => intro j k x hx; simp at hx
  | cons y l ih =>
    intro j k x hx
    cases j with
    | zero =>
      simp only [List.get?] at hx
      cases hx
      simp only [List.enumFrom, List.map_cons, List.sum_cons, Nat.add_zero, if_pos rfl]
      rw [enumFrom_sum_of_lt l (k + 1) (by omega)]
      simp
    | succ j =>
      simp only [List.get?] at hx
      have := ih j (k + 1) x hx
      simp only [List.enumFrom, List.map_cons, List.sum_cons,
        if_neg (by omega : ¬ k + (j + 1) = k)]
      rw [show k + (j + 1) = (k + 1) + j from by omega, this, Nat.zero_add]

/-- C5: the dense occupancy matrix entry `[t, s]` equals the number of
retained intervals belonging to the speaker at registry position `s`
whose half-open range `[start, end)` contains `t`; overlapping
same-speaker intervals accumulate counts greater than 1. -/
theorem claim_C5_occupancy_is_count (speakers : List String)
    (ivs : List (Nat × Nat × String)) (t s : Nat) (sid : String)
    (hs : speakers.get? s = some sid) :
    active_speakers_matrix speakers ivs t s =
      ivs.countP (fun iv => decide (iv.2.2 = sid ∧ iv.1 ≤ t ∧ t < iv.2.1)) := by
  rw [active_speakers_matrix, foldl_addSpeakerIntervals_apply]
  rw [show speakers.enum = List.enumFrom 0 speakers from rfl]
  have := enumFrom_sum_get (X := fun q =>
    ivs.countP (fun iv => decide (iv.2.2 = q ∧ iv.1 ≤ t ∧ t < iv.2.1)))
    speakers s 0 sid hs
  rw [show (0 : Nat) + s = s from by omega] at this
  rw [this]
  simp

/-- Witness for C5, the spec's occupancy example: one speaker with
overlapping intervals `[0,10)` and `[5,15)` has occupancy 2 at tick 7,
1 at tick 2, 1 at tick 12 and 0 at tick 20. -/
theorem claim_C5_occupancy_is_count_witness :
    active_speakers_matrix ["A"] [(0, 10, "A"), (5, 15, "A")] 7 0 = 2
    ∧ active_speakers_matrix ["A"] [(0, 10, "A"), (5, 15, "A")] 2 0 = 1
    ∧ active_speakers_matrix ["A"] [(0, 10, "A"), (5, 15, "A")] 12 0 = 1
    ∧ active_speakers_matrix ["A"] [(0, 10, "A"), (5, 15, "A")] 20 0 = 0 :=
  ⟨(claim_C5_occupancy_is_count ["A"] [(0, 10, "A"), (5, 15, "A")] 7 0 "A"
      rfl).trans (by decide),
    (claim_C5_occupancy_is_count ["A"] [(0, 10, "A"), (5, 15, "A")] 2 0 "A"
      rfl).trans (by decide),
    (claim_C5_occupancy_is_count ["A"] [(0, 10, "A"), (5, 15, "A")] 12 0 "A"
      rfl).trans (by decide),
    (claim_C5_occupancy_is_count ["A"] [(0, 10, "A"), (5, 15, "A")] 20 0 "A"
      rfl).trans (by decide)⟩

/-- Helper for `group_by_values`: the current run started at tick
`start`, has value `v`, and has already absorbed `cnt` rows. -/
def runsFrom : Nat → List Nat → Nat → List (List Nat) → List ((Nat × Nat) × List Nat)
  | start, v, cnt, [] => [((start, start + cnt), v)]
  | start, v, cnt, x :: xs =>
    if x = v then runsFrom start v (cnt + 1) xs
    else ((start, start + cnt), v) :: runsFrom (start + cnt) x 1 xs

/-- Modelled from the spec: `group_by_values` from
`rennet.utils.np_utils` is not in the sources; per the spec (§4.4,
"Compression") it scans the dense matrix top to bottom and emits one
run-length segment `(start, end)` per maximal run of identical rows,
paired with that row vector. -/
def group_by_values : List (List Nat) → List ((Nat × Nat) × List Nat)
  | [] => []
  | x :: xs => runsFrom 0 x 1 xs

/-- The segments start at `k`, are each nonempty, and are contiguous:
every segment starts where the previous one ended. -/
def contiguousFrom (k : Nat) : List ((Nat × Nat) × List Nat) → Prop
  | [] => True
  | seg :: rest => seg.1.1 = k ∧ k < seg.1.2 ∧ contiguousFrom seg.1.2 rest

/-- End boundary of the last segment (`k` when there is none). -/
def lastEnd (k : Nat) : List ((Nat × Nat) × List Nat) → Nat
  | [] => k
  | seg :: rest => lastEnd seg.1.2 rest

/-- Expanding every run-length segment back into its rows. -/
def decompress (tl : List ((Nat × Nat) × List Nat)) : List (List Nat) :=
  (tl.map (fun seg => List.replicate (seg.1.2 - seg.1.1) seg.2)).join

theorem decompress_cons (seg : (Nat × Nat) × List Nat)
    (tl : List ((Nat × Nat) × List Nat)) :
    decompress (seg :: tl) =
      List.replicate (seg.1.2 - seg.1.1) seg.2 ++ decompress tl := by
  simp [decompress]

theorem runsFrom_contiguous (xs : List (List Nat)) :
    ∀ (start cnt : Nat) (v : List Nat), 0 < cnt →
      contiguousFrom start (runsFrom start v cnt xs) := by
  induction xs with
  | nil =>
    intro start cnt v hcnt
    refine ⟨rfl, ?_, trivial⟩
    show start < start + cnt
    omega
  | cons x xs ih =>
    intro start cnt v hcnt
    rw [runsFrom]
    by_cases hx : x = v
    · rw [if_pos hx]
      exact ih start (cnt + 1) v (by omega)
    · rw [if_neg hx]
      refine ⟨rfl, ?_, ih (start + cnt) 1 x (by omega)⟩
      show start < start + cnt
      omega

theorem runsFrom_lastEnd (xs : List (List Nat)) :
    ∀ (start cnt : Nat) (v : List Nat),
      lastEnd start (runsFrom start v cnt xs) = start + cnt + xs.length := by
  induction xs with
  | nil => intro start cnt v; rfl
  | cons x xs ih =>
    intro start cnt v
    rw [runsFrom]
    by_cases hx : x = v
    · rw [if_pos hx, ih]
      simp only [List.length_cons]
      omega
    · rw [if_neg hx]
      show lastEnd (start + cnt) _ = _
      rw [ih]
      simp only [List.length_cons]
      omega

theorem runsFrom_head_val (xs : List (List Nat)) :
    ∀ (start cnt : Nat) (v : List Nat),
      (runsFrom start v cnt xs).head?.map (fun seg => seg.2) = some v := by
  induction xs with
  | nil => intro start cnt v; rfl
  | cons x xs ih =>
    intro start cnt v
    rw [runsFrom]
    by_cases hx : x = v
    · rw [if_pos hx]
      exact ih start (cnt + 1) v
    · rw [if_neg hx]
      rfl

theorem runsFrom_chain_ne (xs : List (List Nat)) :
    ∀ (start cnt : Nat) (v : List Nat),
      List.Chain' (fun a b => a.2 ≠ b.2) (runsFrom start v cnt xs) := by
  induction xs with
  | nil => intro start cnt v; simp [runsFrom]
  | cons x xs ih =>
    intro start cnt v
    rw [runsFrom]
    by_cases hx : x = v
    · rw [if_pos hx]
      exact ih start (cnt + 1) v
    · rw [if_neg hx]
      rw [List.chain'_cons']
      refine ⟨?_, ih (start + cnt) 1 x⟩
      intro y hy
      have hv := runsFrom_head_val xs (start + cnt) 1 x
      rw [Option.mem_def] at hy
      rw [hy] at hv
      simp only [Option.map_some'] at hv
      have : y.2 = x := (Option.some.inj hv)
      simpa [this] using fun h => hx h.symm

theorem runsFrom_decompress (xs : List (List Nat)) :
    ∀ (start cnt : Nat) (v : List Nat),
      decompress (runsFrom start v cnt xs) = List.replicate cnt v ++ xs := by
  induction xs with
  | nil =>
    intro start cnt v
    simp [runsFrom, decompress]
  | cons x xs ih =>
    intro start cnt v
    rw [runsFrom]
    by_cases hx : x = v
    · rw [if_pos hx, ih, hx, List.replicate_succ']
      simp
    · rw [if_neg hx, decompress_cons, ih]
      show List.replicate (start + cnt - start) v ++ (List.replicate 1 x ++ xs)
        = List.replicate cnt v ++ x :: xs
      rw [show start + cnt - start = cnt from by omega]
      simp

/-- The compression invariants for an arbitrary row list. -/
theorem group_by_values_spec (rows : List (List Nat)) :
    contiguousFrom 0 (group_by_values rows)
    ∧ lastEnd 0 (group_by_values rows) = rows.length
    ∧ List.Chain' (fun a b => a.2 ≠ b.2) (group_by_values rows)
    ∧ decompress (group_by_values rows) = rows := by
  cases rows with
  | nil => exact ⟨trivial, rfl, List.chain'_nil, rfl⟩
  | cons x xs =>
    refine ⟨runsFrom_contiguous xs 0 1 x (by omega), ?_,
      runsFrom_chain_ne xs 0 1 x, ?_⟩
    · rw [group_by_values, runsFrom_lastEnd]
      simp only [List.length_cons]
      omega
    · rw [group_by_values, runsFrom_decompress]
      rfl

/-- The rescaling from the source resolution to the target resolution
applied to one annotated interval. -/
def rescaleIv (orig target : Nat) (iv : Nat × Nat × String) : Nat × Nat × String :=
  (iv.1 * target / orig, iv.2.1 * target / orig, iv.2.2)

/-- Embeds `ActiveSpeakers.from_annotations` (`ka3.py` lines 244-274).
The annotation set is given as intervals `(start, end, speakerid)` at
resolution `orig` together with the speaker registry.

Modelled from the spec where `ka3.py`'s collaborators are not in the
sources: `samplerate_as` from `rennet.utils.label_utils` rescales every
tick by `target / orig` (exact rational arithmetic), and the source's
`np.round` + `np.testing.assert_almost_equal` gate is the spec's exact
check that every rescaled tick is an integer — `(tick * target) % orig
= 0` — raising (`none`) otherwise.  On success the dense matrix over
`[0, max rescaled end)` is built by `active_speakers_matrix` and
compressed by `group_by_values` (source: `np_utils.group_by_values`). -/
def from_annotations (ivs : List (Nat × Nat × String)) (speakers : List String)
    (orig target : Nat) : Option (List ((Nat × Nat) × List Nat)) :=
  if ivs.all (fun iv => (iv.1 * target) % orig == 0 && (iv.2.1 * target) % orig == 0) then
    let ivs2 := ivs.map (rescaleIv orig target)
    let total := (ivs2.map (fun iv => iv.2.1)).foldl max 0
    let m := active_speakers_matrix speakers ivs2
    some (group_by_values ((List.range total).map
      (fun t => (List.range speakers.length).map (fun s => m t s))))
  else none

theorem from_annotations_gate (ivs : List (Nat × Nat × String))
    (speakers : List String) (orig target : Nat) (horig : 0 < orig) :
    (ivs.all (fun iv => (iv.1 * target) % orig == 0 && (iv.2.1 * target) % orig == 0))
      = true
    ↔ ∀ iv ∈ ivs, orig ∣ iv.1 * target ∧ orig ∣ iv.2.1 * target := by
  rw [List.all_eq_true]
  constructor
  · intro h iv hiv
    have := h iv hiv
    rw [Bool.and_eq_true, beq_iff_eq, beq_iff_eq] at this
    exact ⟨Nat.dvd_of_mod_eq_zero this.1, Nat.dvd_of_mod_eq_zero this.2⟩
  · intro h iv hiv
    rw [Bool.and_eq_true, beq_iff_eq, beq_iff_eq]
    exact ⟨Nat.mod_eq_zero_of_dvd (h iv hiv).1,
      Nat.mod_eq_zero_of_dvd (h iv hiv).2⟩

/-- C2: building the timeline fails (returns no timeline) exactly when
some interval tick does not rescale from the source resolution to the
target resolution as an exact integer; when every tick rescales exactly,
the build succeeds and the ticks used are the exact rescalings — no
rounding is applied to any tick. -/
theorem claim_C2_resolution_mismatch_gate (ivs : List (Nat × Nat × String))
    (speakers : List String) (orig target : Nat) (horig : 0 < orig) :
    (from_annotations ivs speakers orig target = none
      ↔ ¬ ∀ iv ∈ ivs, orig ∣ iv.1 * target ∧ orig ∣ iv.2.1 * target)
    ∧ ((∀ iv ∈ ivs, orig ∣ iv.1 * target ∧ orig ∣ iv.2.1 * target) →
        ∃ tl, from_annotations ivs speakers orig target = some tl
          ∧ ∀ iv ∈ ivs, (iv.1 * target / orig) * orig = iv.1 * target
              ∧ (iv.2.1 * target / orig) * orig = iv.2.1 * target) := by
  constructor
  · rw [from_annotations]
    by_cases hb : (ivs.all (fun iv =>
        (iv.1 * target) % orig == 0 && (iv.2.1 * target) % orig == 0)) = true
    · rw [if_pos hb]
      simp only [reduceCtorEq, false_iff, not_not]
      exact (from_annotations_gate ivs speakers orig target horig).mp hb
    · rw [if_neg hb]
      simp only [true_iff]
      exact fun h => hb ((from_annotations_gate ivs speakers orig target horig).mpr h)
  · intro h
    have hsome : from_annotations ivs speakers orig target =
        some (group_by_values ((List.range (((ivs.map (rescaleIv orig target)).map
            (fun iv => iv.2.1)).foldl max 0)).map
          (fun t => (List.range speakers.length).map
            (fun s => active_speakers_matrix speakers
              (ivs.map (rescaleIv orig target)) t s)))) := by
      rw [from_annotations,
        if_pos ((from_annotations_gate ivs speakers orig target horig).mpr h)]
    exact ⟨_, hsome, fun iv hiv =>
      ⟨Nat.div_mul_cancel (h iv hiv).1, Nat.div_mul_cancel (h iv hiv).2⟩⟩

/-- Witness for C2: source resolution 3 with target 2 fails on the
interval `[1, 2)` (spec's Testable Property 7), and the same interval
succeeds exactly at target 6. -/
theorem claim_C2_resolution_mismatch_gate_witness :
    from_annotations [(1, 2, "A")] ["A"] 3 2 = none
    ∧ ∃ tl, from_annotations [(1, 2, "A")] ["A"] 3 6 = some tl
        ∧ ∀ iv ∈ [((1 : Nat), (2 : Nat), "A")], (iv.1 * 6 / 3) * 3 = iv.1 * 6
            ∧ (iv.2.1 * 6 / 3) * 3 = iv.2.1 * 6 :=
  ⟨(claim_C2_resolution_mismatch_gate [(1, 2, "A")] ["A"] 3 2 (by decide)).1.mpr
      (by decide),
    (claim_C2_resolution_mismatch_gate [(1, 2, "A")] ["A"] 3 6 (by decide)).2
      (by decide)⟩

/-- C9: every timeline the builder returns is an ordered, non-overlapping,
gap-free sequence of `(startTick, endTick)` segments covering
`[0, maxEndTick)` (`maxEndTick` = maximum rescaled end), each segment
paired with one occupancy vector, no two adjacent segments carrying an
identical vector, and expanding each segment back to one dense-matrix
row per tick reproduces the dense matrix exactly (each segment is a run
of identical rows, maximal by the adjacent-distinct invariant). -/
theorem claim_C9_timeline_invariants (ivs : List (Nat × Nat × String))
    (speakers : List String) (orig target : Nat)
    (tl : List ((Nat × Nat) × List Nat))
    (h : from_annotations ivs speakers orig target = some tl) :
    contiguousFrom 0 tl
    ∧ lastEnd 0 tl =
        ((ivs.map (rescaleIv orig target)).map (fun iv => iv.2.1)).foldl max 0
    ∧ List.Chain' (fun a b => a.2 ≠ b.2) tl
    ∧ decompress tl =
        (List.range (((ivs.map (rescaleIv orig target)).map
            (fun iv => iv.2.1)).foldl max 0)).map
          (fun t => (List.range speakers.length).map
            (fun s => active_speakers_matrix speakers
              (ivs.map (rescaleIv orig target)) t s)) := by
  rw [from_annotations] at h
  by_cases hb : (ivs.all (fun iv =>
      (iv.1 * target) % orig == 0 && (iv.2.1 * target) % orig == 0)) = true
  · rw [if_pos hb] at h
    have htl : tl = group_by_values ((List.range (((ivs.map (rescaleIv orig target)).map
        (fun iv => iv.2.1)).foldl max 0)).map
      (fun t => (List.range speakers.length).map
        (fun s => active_speakers_matrix speakers
          (ivs.map (rescaleIv orig target)) t s))) := (Option.some.inj h).symm
    subst htl
    obtain ⟨h1, h2, h3, h4⟩ := group_by_values_spec
      ((List.range (((ivs.map (rescaleIv orig target)).map
          (fun iv => iv.2.1)).foldl max 0)).map
        (fun t => (List.range speakers.length).map
          (fun s => active_speakers_matrix speakers
            (ivs.map (rescaleIv orig target)) t s)))
    refine ⟨h1, ?_, h3, h4⟩
    rw [h2, List.length_map, List.length_range]
  · rw [if_neg hb] at h
    exact absurd h (by simp)

/-- Witness for C9 at a concrete input: one speaker, one interval
`[0, 2)` at matching resolutions; the timeline is the single segment
`[0, 2)` with occupancy vector `[1]`. -/
theorem claim_C9_timeline_invariants_witness :
    contiguousFrom 0 [((0, 2), [1])]
    ∧ lastEnd 0 [((0, 2), [1])] =
        (([((0 : Nat), (2 : Nat), "A")].map (rescaleIv 1 1)).map
          (fun iv => iv.2.1)).foldl max 0
    ∧ List.Chain' (fun a b => a.2 ≠ b.2) [((0, 2), [1])]
    ∧ decompress [((0, 2), [1])] =
        (List.range ((([((0 : Nat), (2 : Nat), "A")].map (rescaleIv 1 1)).map
            (fun iv => iv.2.1)).foldl max 0)).map
          (fun t => (List.range (List.length ["A"])).map
            (fun s => active_speakers_matrix ["A"]
              ([((0 : Nat), (2 : Nat), "A")].map (rescaleIv 1 1)) t s)) :=
  claim_C9_timeline_invariants [(0, 2, "A")] ["A"] 1 1 [((0, 2), [1])] (by decide)

/-- Embeds `np.max` over a list (the source only applies it to
non-empty arrays; numpy raises on an empty one). -/
def listMax : List Nat → Nat
  | [] => 0
  | x :: xs => xs.foldl max x

/-- Embeds `np.min` over a list (the source only applies it to
non-empty arrays). -/
def listMin : List Nat → Nat
  | [] => 0
  | x :: xs => xs.foldl min x

/-- Embeds `np.searchsorted(endings, q, side='left')` on a sorted
array: the number of elements strictly below `q`, i.e. the leftmost
index whose element is `>= q`. -/
def searchsortedLeft (l : List Nat) (q : Nat) : Nat :=
  (l.takeWhile (fun e => decide (e < q))).length

/-- Embeds `ActiveSpeakers.labels_at` (`ka3.py` lines 281-319) at the
timeline's own samplerate (the `samplerate is None` path; the rescaling
branches delegate to the absent `label_utils` module).  `starts`/`ends`
are the stored segment boundaries, `labels` the per-segment occupancy
vectors (rows of width `w`), `queries` the query points (`ends`
argument in the source; a scalar is first wrapped into a one-element
sequence).  Out-of-range queries keep the zero row of the
`np.zeros((len(ends), *labels.shape[1:]))` allocation. -/
def labels_at (starts ends : List Nat) (labels : List (List Nat)) (w : Nat)
    (queries : List Nat) : List (List Nat) :=
  let minstart := listMin starts
  let maxend := listMax ends
  queries.map (fun q =>
    if q ≤ maxend ∧ minstart ≤ q then
      labels.getD (searchsortedLeft ends q) (List.replicate w 0)
    else List.replicate w 0)

theorem listMax_mem : ∀ (l : List Nat), l ≠ [] → listMax l ∈ l := by
  have haux : ∀ (xs : List Nat) (x : Nat), xs.foldl max x ∈ x :: xs := by
    intro xs
    induction xs with
    | nil => intro x; exact List.mem_cons_self x []
    | cons y xs ih =>
      intro x
      rw [List.foldl_cons]
      rcases max_choice x y with h | h
      · rcases List.mem_cons.mp (ih (max x y)) with hm | hm
        · rw [hm, h]; exact List.mem_cons_self _ _
        · exact List.mem_cons_of_mem _ (List.mem_cons_of_mem _ hm)
      · rcases List.mem_cons.mp (ih (max x y)) with hm | hm
        · rw [hm, h]
          exact List.mem_cons_of_mem _ (List.mem_cons_self _ _)
        · exact List.mem_cons_of_mem _ (List.mem_cons_of_mem _ hm)
  intro l hl
  cases l with
  | nil => exact absurd rfl hl
  | cons x xs => exact haux xs x

theorem takeWhile_get?_taken {α : Type} (p : α → Bool) :
    ∀ (l : List α) (k : Nat) (x : α), k < (l.takeWhile p).length →
      l.get? k = some x → p x = true := by
  intro l
  induction l with
  | nil => intro k x hk _; simp [List.takeWhile] at hk
  | cons y l ih =>
    intro k x hk hx
    rw [List.takeWhile] at hk
    cases hpy : p y with
    | false => rw [hpy] at hk; simp at hk
    | true =>
      rw [hpy] at hk
      simp only [List.length_cons] at hk
      cases k with
      | zero =>
        simp only [List.get?] at hx
        cases hx
        exact hpy
      | succ k =>
        simp only [List.get?] at hx
        exact ih k x (by omega) hx

theorem takeWhile_get?_stop {α : Type} (p : α → Bool) :
    ∀ (l : List α) (x : α), l.get? (l.takeWhile p).length = some x →
      p x = false := by
  intro l
  induction l with
  | nil => intro x hx; simp at hx
  | cons y l ih =>
    intro x hx
    rw [List.takeWhile] at hx
    cases hpy : p y with
    | false =>
      rw [hpy] at hx
      simp only [List.length_nil, List.get?] at hx
      cases hx
      exact hpy
    | true =>
      rw [hpy] at hx
      simp only [List.length_cons, List.get?] at hx
      exact ih x hx

theorem takeWhile_length_eq_imp {α : Type} (p : α → Bool) :
    ∀ (l : List α), (l.takeWhile p).length = l.length →
      ∀ x ∈ l, p x = true := by
  intro l
  induction l with
  | nil => intro _ x hx; simp at hx
  | cons y l ih =>
    intro hlen x hx
    rw [List.takeWhile] at hlen
    cases hpy : p y with
    | false =>
      rw [hpy] at hlen
      simp at hlen
    | true =>
      rw [hpy] at hlen
      simp only [List.length_cons, Nat.succ.injEq] at hlen
      rcases List.mem_cons.mp hx with hx | hx
      · rw [hx]; exact hpy
      · exact ih hlen x hx

theorem getD_of_get? {α : Type} {l : List α} {i : Nat} {a d : α}
    (h : l.get? i = some a) : l.getD i d = a := by
  induction l generalizing i with
  | nil => simp at h
  | cons x xs ih =>
    cases i with
    | zero =>
      simp only [List.get?] at h
      cases h
      rfl
    | succ j =>
      simp only [List.get?] at h
      simpa [List.getD] using ih h

/-- C6: `labels_at` returns one occupancy vector per query point, in
order.  A query strictly below the minimum segment start or strictly
above the maximum segment end yields the all-zero vector, not an error.
An in-range query `q` yields the occupancy vector of the segment whose
end boundary is the leftmost end value `>= q` (left-biased tie-break on
exact equality). -/
theorem claim_C6_labels_at_leftmost (starts ends : List Nat)
    (labels : List (List Nat)) (w : Nat) (queries : List Nat)
    (hne : ends ≠ []) (hlen : labels.length = ends.length) :
    (labels_at starts ends labels w queries).length = queries.length
    ∧ ∀ j q, queries.get? j = some q →
        ((q < listMin starts ∨ listMax ends < q →
            (labels_at starts ends labels w queries).get? j =
              some (List.replicate w 0))
        ∧ (listMin starts ≤ q → q ≤ listMax ends →
            ∃ i e v, ends.get? i = some e ∧ labels.get? i = some v
              ∧ (labels_at starts ends labels w queries).get? j = some v
              ∧ q ≤ e
              ∧ ∀ k e', k < i → ends.get? k = some e' → e' < q)) := by
  constructor
  · rw [labels_at, List.length_map]
  · intro j q hq
    have hres : (labels_at starts ends labels w queries).get? j =
        some (if q ≤ listMax ends ∧ listMin starts ≤ q then
          labels.getD (searchsortedLeft ends q) (List.replicate w 0)
          else List.replicate w 0) := by
      rw [labels_at, List.get?_map, hq, Option.map_some']
    constructor
    · intro hout
      rw [hres, if_neg (by omega)]
    · intro hmin hmax
      rw [hres, if_pos ⟨hmax, hmin⟩]
      have hsub : (ends.takeWhile (fun e => decide (e < q))).length ≤ ends.length :=
        List.Sublist.length_le (List.takeWhile_sublist _)
      have hlt : searchsortedLeft ends q < ends.length := by
        rcases Nat.lt_or_ge (searchsortedLeft ends q) ends.length with h | h
        · exact h
        · exfalso
          have heq : (ends.takeWhile (fun e => decide (e < q))).length = ends.length := by
            rw [searchsortedLeft] at h
            omega
          have hall := takeWhile_length_eq_imp _ ends heq (listMax ends)
            (listMax_mem ends hne)
          rw [decide_eq_true_iff] at hall
          omega
      obtain ⟨e, he⟩ : ∃ e, ends.get? (searchsortedLeft ends q) = some e :=
        ⟨ends.get ⟨searchsortedLeft ends q, hlt⟩, List.get?_eq_get hlt⟩
      obtain ⟨v, hv⟩ : ∃ v, labels.get? (searchsortedLeft ends q) = some v :=
        ⟨labels.get ⟨searchsortedLeft ends q, by omega⟩, List.get?_eq_get (by omega)⟩
      refine ⟨searchsortedLeft ends q, e, v, he, hv, ?_, ?_, ?_⟩
      · rw [getD_of_get? hv]
      · have := takeWhile_get?_stop (fun e => decide (e < q)) ends e he
        rw [decide_eq_false_iff_not] at this
        omega
      · intro k e' hk hk'
        have := takeWhile_get?_taken (fun e => decide (e < q)) ends k e' hk hk'
        rwa [decide_eq_true_iff] at this

/-- Witness for C6, the spec's lookup example: timeline segments
`[0,5)→[1]`, `[5,10)→[2]`, `[10,15)→[1]`; queries `[4, 10, 100]`. -/
theorem claim_C6_labels_at_leftmost_witness :
    (labels_at [0, 5, 10] [5, 10, 15] [[1], [2], [1]] 1 [4, 10, 100]).length =
      List.length [4, 10, 100]
    ∧ ∀ j q, List.get? [4, 10, 100] j = some q →
        ((q < listMin [0, 5, 10] ∨ listMax [5, 10, 15] < q →
            (labels_at [0, 5, 10] [5, 10, 15] [[1], [2], [1]] 1 [4, 10, 100]).get? j =
              some (List.replicate 1 0))
        ∧ (listMin [0, 5, 10] ≤ q → q ≤ listMax [5, 10, 15] →
            ∃ i e v, List.get? [5, 10, 15] i = some e
              ∧ List.get? [[1], [2], [1]] i = some v
              ∧ (labels_at [0, 5, 10] [5, 10, 15] [[1], [2], [1]] 1
                  [4, 10, 100]).get? j = some v
              ∧ q ≤ e
              ∧ ∀ k e', k < i → List.get? [5, 10, 15] k = some e' → e' < q)) :=
  claim_C6_labels_at_leftmost [0, 5, 10] [5, 10, 15] [[1], [2], [1]] 1
    [4, 10, 100] (by decide) (by decide)

/-! ## The document batch loop (`mpeg7_utils.parse_mpeg7`, lines 61-125)

A segment is modelled by its raw time-point and duration strings and an
optional descriptor bundle; a descriptor field whose text is absent is
`none` (the `any(x is None ...)` check of `_parse_descriptor` raises
ValueError on it). -/

structure Desc where
  speakerid : Option String
  gender : Option String
  givenname : Option String
  confidence : Option String
  transcription : Option String
  deriving DecidableEq

structure Seg where
  timepoint : List Char
  duration : List Char
  descriptor : Option Desc
  deriving DecidableEq

/-- Embeds `_parse_descriptor` (`mpeg7_utils.py` lines 188-200): all
five sub-fields must be present, otherwise ValueError (`none`). -/
def parseDescriptor (d : Desc) :
    Option (String × String × String × String × String) :=
  match d.speakerid, d.gender, d.givenname, d.confidence, d.transcription with
  | some a, some g, some n, some c, some t => some (a, g, n, c, t)
  | _, _, _, _, _ => none

/-- How `parse_mpeg7` can abort: `parseErr i` is the ValueError from
segment `i`'s time strings, printed with the segment number and
re-raised (lines 88-92); `nameErr i` is the NameError from reading the
never-assigned descriptor variables after the first descriptor failure
(lines 110-119); `noSegments` is the "No AudioSegment tags found"
ValueError (lines 77-78); `sanitizeRaise` is the error from
`_sanitize_starts_ends` when no segment was retained (Python `reduce`
over an empty set). -/
inductive BatchErr where
  | parseErr (i : Nat)
  | nameErr (i : Nat)
  | noSegments
  | sanitizeRaise
  deriving DecidableEq

/-- Accumulated per-document state of the segment loop. -/
structure BatchOut where
  startsEnds : List (Nat × Nat)
  persecs : List Nat
  speakerids : List String
  genders : List String
  givennames : List String
  confidences : List String
  transcriptions : List String
  warnIdxs : List Nat
  descErrIdxs : List Nat
  deriving DecidableEq

def emptyBatch : BatchOut := ⟨[], [], [], [], [], [], [], [], []⟩

/-- The five appends of lines 115-119 (run for every segment that
reaches them, whether the descriptor parse succeeded or the variables
still hold the previous segment's values). -/
def pushDesc (acc : BatchOut) (v : String × String × String × String × String) :
    BatchOut :=
  { acc with
    speakerids := acc.speakerids ++ [v.1]
    genders := acc.genders ++ [v.2.1]
    givennames := acc.givennames ++ [v.2.2.1]
    confidences := acc.confidences ++ [v.2.2.2.1]
    transcriptions := acc.transcriptions ++ [v.2.2.2.2] }

/-- Embeds the segment loop of `parse_mpeg7` (lines 87-119).  `i` is the
0-based loop index, `last` the current values of the descriptor
variables from the previous iteration (`none` while still unassigned).
A time-string ValueError prints the segment number and re-raises
(aborting); a missing descriptor means no speech and the segment is
skipped; `end <= start` records a warning and skips; otherwise the
interval and resolution are appended, and the descriptor values — or,
after a descriptor ValueError, the previous iteration's values (a
NameError if there are none) — are appended. -/
def processSegs : List Seg → Nat → BatchOut →
    Option (String × String × String × String × String) →
    Except BatchErr BatchOut
  | [], _, acc, _ => .ok acc
  | seg :: rest, i, acc, last =>
    match parse_timestring seg.timepoint seg.duration with
    | none => .error (.parseErr i)
    | some (s, e, p) =>
      match seg.descriptor with
      | none => processSegs rest (i + 1) acc last
      | some d =>
        if e ≤ s then
          processSegs rest (i + 1)
            { acc with warnIdxs := acc.warnIdxs ++ [i] } last
        else
          let acc2 := { acc with
            startsEnds := acc.startsEnds ++ [(s, e)]
            persecs := acc.persecs ++ [p] }
          match parseDescriptor d with
          | some v => processSegs rest (i + 1) (pushDesc acc2 v) (some v)
          | none =>
            match last with
            | none => .error (.nameErr i)
            | some v => processSegs rest (i + 1)
                (pushDesc { acc2 with descErrIdxs := acc2.descErrIdxs ++ [i] } v)
                (some v)

/-- Embeds `parse_mpeg7` (lines 61-125): fail on an empty segment list,
run the loop, then sanitize the collected intervals to the common
resolution. -/
def parse_mpeg7 (segs : List Seg) :
    Except BatchErr (List (Nat × Nat) × Nat × BatchOut) :=
  match segs with
  | [] => .error .noSegments
  | _ =>
    match processSegs segs 0 emptyBatch none with
    | .error e => .error e
    | .ok acc =>
      match sanitize_starts_ends acc.startsEnds acc.persecs with
      | none => .error .sanitizeRaise
      | some (se, p) => .ok (se, p, acc)

/-- A segment whose time strings do not parse. -/
def badTimeSeg : Seg :=
  { timepoint := ['T'], duration := ['P', 'T', '1', 'N', '2', 'F'],
    descriptor := some ⟨some "s1", some "m", some "S One", some "0.9", some "hi"⟩ }

/-- A fully well-formed segment: `[0, 1)` at resolution 2. -/
def goodSeg : Seg :=
  { timepoint := ['T', '0', '0', ':', '0', '0', ':', '0', '0', ':', '0', 'F', '2'],
    duration := ['P', 'T', '1', 'N', '2', 'F'],
    descriptor := some ⟨some "s1", some "m", some "S One", some "0.9", some "hi"⟩ }

/-- A segment with a well-formed time string whose descriptor is missing
the speaker-id sub-field. -/
def noIdSeg : Seg :=
  { goodSeg with
    descriptor := some ⟨none, some "m", some "S One", some "0.9", some "hi"⟩ }

/-- A segment parsing to the degenerate interval `[0, 0)`. -/
def degSeg : Seg :=
  { goodSeg with duration := ['P', 'T', '0', 'N', '2', 'F'] }

/-- C7 counterexample: the claim says a segment with a malformed
time-point/duration string is excluded and processing of the remaining
segments continues.  On the concrete batch `[badTimeSeg, goodSeg]` the
code prints the segment number and re-raises the ValueError: the whole
batch aborts and no annotation set is produced, even though the second
segment alone parses fine. -/
theorem claim_C7_counterexample :
    parse_mpeg7 [badTimeSeg, goodSeg] = Except.error (BatchErr.parseErr 0)
    ∧ (∃ out, parse_mpeg7 [goodSeg] = Except.ok out)
    ∧ ∀ out, parse_mpeg7 [badTimeSeg, goodSeg] ≠ Except.ok out :=
  ⟨rfl, ⟨_, rfl⟩, fun _ h => Except.noConfusion
    ((rfl : parse_mpeg7 [badTimeSeg, goodSeg] =
      Except.error (BatchErr.parseErr 0)).symm.trans h)⟩

/-- C7 (amended): a malformed time-point/duration string is reported
with its segment index but aborts the whole batch (the ValueError is
re-raised), rather than the segment being excluded and processing
continuing; a missing descriptor sub-field is reported with its segment
index and processing continues, but the failing segment is not excluded
— its interval and resolution are retained and the previous successful
segment's descriptor values are appended in its place — and if no
previous descriptor values exist the loop itself crashes (NameError). -/
theorem claim_C7_amended_error_locality :
    (∀ (seg : Seg) (rest : List Seg),
        parse_timestring seg.timepoint seg.duration = none →
        parse_mpeg7 (seg :: rest) = Except.error (BatchErr.parseErr 0))
    ∧ (∀ (seg : Seg) (rest : List Seg) (i : Nat) (acc : BatchOut)
        (v : String × String × String × String × String)
        (s e p : Nat) (d : Desc),
        parse_timestring seg.timepoint seg.duration = some (s, e, p) →
        seg.descriptor = some d →
        parseDescriptor d = none →
        s < e →
        processSegs (seg :: rest) i acc (some v) =
          processSegs rest (i + 1)
            (pushDesc { acc with
              startsEnds := acc.startsEnds ++ [(s, e)]
              persecs := acc.persecs ++ [p]
              descErrIdxs := acc.descErrIdxs ++ [i] } v) (some v))
    ∧ (∀ (seg : Seg) (rest : List Seg) (i : Nat) (acc : BatchOut)
        (s e p : Nat) (d : Desc),
        parse_timestring seg.timepoint seg.duration = some (s, e, p) →
        seg.descriptor = some d →
        parseDescriptor d = none →
        s < e →
        processSegs (seg :: rest) i acc none = Except.error (BatchErr.nameErr i)) := by
  refine ⟨?_, ?_, ?_⟩
  · intro seg rest h
    simp only [parse_mpeg7, processSegs, h]
  · intro seg rest i acc v s e p d h1 h2 h3 h4
    have hns : ¬ e ≤ s := by omega
    simp only [processSegs, h1, h2, h3, if_neg hns]
  · intro seg rest i acc s e p d h1 h2 h3 h4
    have hns : ¬ e ≤ s := by omega
    simp only [processSegs, h1, h2, h3, if_neg hns]

/-- Witness for the amended C7, at concrete inputs: the abort on a
malformed first segment; the retained interval plus reused descriptor
values after a descriptor failure; and the crash when a descriptor
fails on the first retained segment. -/
theorem claim_C7_amended_error_locality_witness :
    parse_mpeg7 [badTimeSeg, goodSeg] = Except.error (BatchErr.parseErr 0)
    ∧ processSegs [noIdSeg] 0 emptyBatch (some ("s1", "m", "S One", "0.9", "hi")) =
        Except.ok ⟨[(0, 1)], [2], ["s1"], ["m"], ["S One"], ["0.9"], ["hi"], [], [0]⟩
    ∧ processSegs [noIdSeg] 0 emptyBatch none = Except.error (BatchErr.nameErr 0) :=
  ⟨claim_C7_amended_error_locality.1 badTimeSeg [goodSeg] rfl,
    claim_C7_amended_error_locality.2.1 noIdSeg [] 0 emptyBatch
      ("s1", "m", "S One", "0.9", "hi") 0 1 2
      ⟨none, some "m", some "S One", some "0.9", some "hi"⟩ rfl rfl rfl (by omega),
    claim_C7_amended_error_locality.2.2 noIdSeg [] 0 emptyBatch 0 1 2
      ⟨none, some "m", some "S One", some "0.9", some "hi"⟩ rfl rfl rfl (by omega)⟩

/-- C8: a parsed segment whose interval has `end <= start` is excluded
via a recorded warning event, not an exception: whenever the loop
completes, no stored interval is degenerate, and a degenerate segment
steps to the rest of the loop with only a warning index recorded —
nothing appended to the interval list, no abort. -/
theorem claim_C8_degenerate_warn_and_skip :
    (∀ (segs : List Seg) (i : Nat) (acc : BatchOut)
        (last : Option (String × String × String × String × String))
        (out : BatchOut),
        processSegs segs i acc last = Except.ok out →
        (∀ x ∈ acc.startsEnds, x.1 < x.2) →
        ∀ x ∈ out.startsEnds, x.1 < x.2)
    ∧ (∀ (seg : Seg) (rest : List Seg) (i : Nat) (acc : BatchOut)
        (last : Option (String × String × String × String × String))
        (s e p : Nat) (d : Desc),
        parse_timestring seg.timepoint seg.duration = some (s, e, p) →
        seg.descriptor = some d →
        e ≤ s →
        processSegs (seg :: rest) i acc last =
          processSegs rest (i + 1)
            { acc with warnIdxs := acc.warnIdxs ++ [i] } last) := by
  constructor
  · intro segs
    induction segs with
    | nil =>
      intro i acc last out hok hinv
      simp only [processSegs] at hok
      cases hok
      exact hinv
    | cons seg rest ih =>
      intro i acc last out hok hinv
      cases hts : parse_timestring seg.timepoint seg.duration with
      | none =>
        simp only [processSegs, hts] at hok
        exact Except.noConfusion hok
      | some val =>
        obtain ⟨s, e, p⟩ := val
        simp only [processSegs, hts] at hok
        cases hdesc : seg.descriptor with
        | none =>
          simp only [hdesc] at hok
          exact ih (i + 1) acc last out hok hinv
        | some d =>
          simp only [hdesc] at hok
          by_cases hdeg : e ≤ s
          · rw [if_pos hdeg] at hok
            exact ih (i + 1) _ last out hok hinv
          · rw [if_neg hdeg] at hok
            have hinv2 : ∀ x ∈ acc.startsEnds ++ [(s, e)], x.1 < x.2 := by
              intro x hx
              rcases List.mem_append.mp hx with hx | hx
              · exact hinv x hx
              · rcases List.mem_cons.mp hx with hx | hx
                · rw [hx]; show s < e; omega
                · simp at hx
            cases hpd : parseDescriptor d with
            | some v =>
              simp only [hpd] at hok
              exact ih (i + 1) _ _ out hok hinv2
            | none =>
              simp only [hpd] at hok
              cases hlast : last with
              | none =>
                simp only [hlast] at hok
                exact Except.noConfusion hok
              | some v =>
                simp only [hlast] at hok
                exact ih (i + 1) _ _ out hok hinv2
  · intro seg rest i acc last s e p d h1 h2 h3
    simp only [processSegs, h1, h2, if_pos h3]

/-- Witness for C8 at concrete inputs: the batch `[goodSeg, degSeg]`
finishes with only the non-degenerate interval stored and the
degenerate one skipped with warning index 1. -/
theorem claim_C8_degenerate_warn_and_skip_witness :
    (∀ x ∈ (⟨[(0, 1)], [2], ["s1"], ["m"], ["S One"], ["0.9"], ["hi"], [1], []⟩
        : BatchOut).startsEnds, x.1 < x.2)
    ∧ processSegs [degSeg] 0 emptyBatch none =
        processSegs [] 1 { emptyBatch with warnIdxs := [] ++ [0] } none :=
  ⟨claim_C8_degenerate_warn_and_skip.1 [goodSeg, degSeg] 0 emptyBatch none
      ⟨[(0, 1)], [2], ["s1"], ["m"], ["S One"], ["0.9"], ["hi"], [1], []⟩
      rfl (by simp [emptyBatch]),
    claim_C8_degenerate_warn_and_skip.2 degSeg [] 0 emptyBatch none 0 0 2
      ⟨some "s1", some "m", some "S One", some "0.9", some "hi"⟩ rfl rfl
      (by omega)⟩

end Rennet
